import Mathlib

/-!
# Verification of `generate_prompt.py`

A shallow embedding of the single-file utility `generate_prompt.py`
(directory-tree renderer plus source-file collector), together with
theorems settling the specification claims about it.

Paths are modelled as `String`s with `/` as separator; the file system is
modelled as a finite tree of named files and directories.  Python's
`str.lower` is modelled character-wise by `Char.toLower` (they agree on
ASCII, and every configured name in the rule tables is ASCII).
-/

/-- `os.path.basename`: the substring after the last `/` (the whole string
if it has no `/`). -/
def basenameStr (p : String) : String :=
  ⟨(p.data.reverse.takeWhile (fun c => c != '/')).reverse⟩

/-- The extension part of `os.path.splitext` applied to a basename: the
suffix starting at the last dot, provided some character before that dot
is not itself a dot; otherwise (no dot at all, or only a leading run of
dots as in `.env`) the empty string.  This mirrors CPython's `splitext`,
which skips the leading dots of the name when looking for the separator. -/
def splitextExt (b : String) : String :=
  if ((b.data.dropWhile (fun c => c == '.')).contains '.') then
    ⟨'.' :: (b.data.reverse.takeWhile (fun c => c != '.')).reverse⟩
  else ""

/-- `str.lower`, character-wise (ASCII-faithful). -/
def lowerStr (s : String) : String :=
  ⟨s.data.map Char.toLower⟩

/-- `TARGET_EXTENSIONS` from the source (a Python set; modelled as the
list of its elements, only membership is ever used). -/
def TARGET_EXTENSIONS : List String :=
  [".c", ".cpp", ".cc", ".cxx", ".h", ".hpp", ".hh",
   ".java", ".kt",
   ".cs",
   ".go",
   ".rs",
   ".swift",
   ".js", ".jsx", ".ts", ".tsx",
   ".php",
   ".py",
   ".rb",
   ".sh", ".bat", ".cmd", ".ps1",
   ".json", ".yaml", ".yml", ".toml", ".ini", ".cfg", ".config", ".env",
   ".md", ".txt"]

/-- `TARGET_FILENAMES` from the source. -/
def TARGET_FILENAMES : List String :=
  ["makefile", "dockerfile", "readme",
   "requirements.txt", "pipfile", "package.json",
   "tsconfig.json", "composer.json"]

/-- `IGNORE_DIRNAMES` from the source. -/
def IGNORE_DIRNAMES : List String :=
  [".git", "node_modules", "__pycache__"]

/-- `IGNORE_FILENAMES` from the source. -/
def IGNORE_FILENAMES : List String :=
  [".gitignore",
   ".pyc", ".o", ".class", ".exe", ".dll", ".so"]

/-- The body of `is_target_file` after `os.path.basename`: the decision is
a function of the basename alone. -/
def classifyBase (base_name : String) : Bool :=
  let ext := splitextExt base_name
  let base_name_lower := lowerStr base_name
  let ext_lower := lowerStr ext
  if base_name_lower ∈ IGNORE_FILENAMES then false
  else if ext_lower ∈ TARGET_EXTENSIONS then true
  else if ext_lower = "" ∧ base_name_lower ∈ TARGET_FILENAMES then true
  else false

/-- `is_target_file` from the source. -/
def is_target_file (file_path : String) : Bool :=
  classifyBase (basenameStr file_path)

/-- `is_ignore_dir` from the source: the lower-cased directory name starts
with one of the configured ignore names. -/
def is_ignore_dir (dir_name : String) : Bool :=
  IGNORE_DIRNAMES.any (fun ig => ig.data.isPrefixOf (lowerStr dir_name).data)

/-- Python string comparison: lexicographic on Unicode code points
(`True` when the first list is `≤` the second). -/
def lexLeB : List Char → List Char → Bool
  | [], _ => true
  | _ :: _, [] => false
  | a :: as, b :: bs =>
    if a.toNat < b.toNat then true
    else if b.toNat < a.toNat then false
    else lexLeB as bs

/-- Python's `s1 <= s2` on strings, as a proposition. -/
def strLe (a b : String) : Prop := lexLeB a.data b.data = true

instance : DecidableRel strLe := fun a b =>
  inferInstanceAs (Decidable (lexLeB a.data b.data = true))

theorem lexLeB_total : ∀ as bs, lexLeB as bs = true ∨ lexLeB bs as = true
  | [], _ => .inl rfl
  | _ :: _, [] => .inr rfl
  | a :: as, b :: bs => by
    rcases Nat.lt_trichotomy a.toNat b.toNat with h | h | h
    · left; simp [lexLeB, h]
    · have h2 : ¬ a.toNat < b.toNat := by omega
      have h3 : ¬ b.toNat < a.toNat := by omega
      simpa [lexLeB, h2, h3] using lexLeB_total as bs
    · right; simp [lexLeB, h]

theorem lexLeB_trans :
    ∀ as bs cs, lexLeB as bs = true → lexLeB bs cs = true → lexLeB as cs = true
  | [], _, _ => by intro _ _; rfl
  | _ :: _, [], _ => by intro h _; exact absurd h (by simp [lexLeB])
  | _ :: _, _ :: _, [] => by intro _ h; exact absurd h (by simp [lexLeB])
  | a :: as, b :: bs, c :: cs => by
    intro hab hbc
    simp only [lexLeB] at hab hbc ⊢
    by_cases h4 : b.toNat < a.toNat
    · have h1 : ¬ a.toNat < b.toNat := by omega
      simp [h1, h4] at hab
    by_cases h3 : c.toNat < b.toNat
    · have h2 : ¬ b.toNat < c.toNat := by omega
      simp [h2, h3] at hbc
    by_cases h1 : a.toNat < b.toNat
    · simp [show a.toNat < c.toNat by omega]
    by_cases h2 : b.toNat < c.toNat
    · simp [show a.toNat < c.toNat by omega]
    · have hac1 : ¬ a.toNat < c.toNat := by omega
      have hac2 : ¬ c.toNat < a.toNat := by omega
      simp only [h1, h4, if_neg, ite_false] at hab
      simp only [h2, h3, if_neg, ite_false] at hbc
      simp only [hac1, hac2, if_neg, ite_false]
      exact lexLeB_trans as bs cs hab hbc

instance : IsTotal String strLe := ⟨fun a b => lexLeB_total a.data b.data⟩

instance : IsTrans String strLe :=
  ⟨fun a b c => lexLeB_trans a.data b.data c.data⟩

/-- A file-system entry: a file, or a directory with its listing. -/
inductive FSTree where
  | file : String → FSTree
  | dir : String → List FSTree → FSTree

/-- The entry's own name. -/
def FSTree.name : FSTree → String
  | .file n => n
  | .dir n _ => n

/-- `os.path.isdir` on an entry. -/
def FSTree.isDir : FSTree → Bool
  | .file _ => false
  | .dir _ _ => true

/-- Ordering of a listing by entry name, as produced by
`sorted(os.listdir(...))`. -/
def byName (a b : FSTree) : Prop := strLe a.name b.name

instance : DecidableRel byName := fun a b =>
  inferInstanceAs (Decidable (strLe a.name b.name))

instance : IsTotal FSTree byName := ⟨fun _ _ => lexLeB_total _ _⟩

instance : IsTrans FSTree byName := ⟨fun _ _ _ => lexLeB_trans _ _ _⟩

/-- `sorted(os.listdir(current_path))`, modelled on the listing itself. -/
def sortChildren (children : List FSTree) : List FSTree :=
  List.insertionSort byName children

theorem sizeOf_orderedInsert (a : FSTree) :
    ∀ l : List FSTree, sizeOf (List.orderedInsert byName a l) = sizeOf (a :: l)
  | [] => rfl
  | b :: t => by
    simp only [List.orderedInsert]
    split
    · rfl
    · have := sizeOf_orderedInsert a t
      simp only [List.cons.sizeOf_spec] at *
      omega

theorem sizeOf_sortChildren :
    ∀ l : List FSTree, sizeOf (sortChildren l) = sizeOf l
  | [] => rfl
  | a :: t => by
    have h1 := sizeOf_orderedInsert a (sortChildren t)
    have h2 := sizeOf_sortChildren t
    simp only [sortChildren, List.insertionSort] at *
    simp only [List.cons.sizeOf_spec] at *
    omega

mutual

/-- Contribution of one entry to `collect_files`' walk: a file is kept when
`is_target_file` accepts its (relative) path; a directory is descended into
unless `is_ignore_dir` prunes it (the `dirnames[:] = ...` filter of
`os.walk`). -/
def collectE (pfx : String) : FSTree → List String
  | .file n => if is_target_file (pfx ++ n) then [pfx ++ n] else []
  | .dir n cs => if is_ignore_dir n then [] else collectL (pfx ++ n ++ "/") cs

/-- The full walk of a directory listing. -/
def collectL (pfx : String) : List FSTree → List String
  | [] => []
  | t :: ts => collectE pfx t ++ collectL pfx ts

end

/-- `collect_files`: walk the root's listing, then `target_files.sort()`. -/
def collect_files (root : List FSTree) : List String :=
  List.insertionSort strLe (collectL "" root)

mutual

/-- The `for i, item in enumerate(items)` loop body of `recurse_dir`:
`total` is `len(items)` of the full sorted listing and `i` the index of the
first entry of the remaining list.  An ignored directory is skipped (but
still occupies its index); otherwise the connector line is emitted and a
directory is recursed into with the deepened accumulated string. -/
def renderLoop (pfx : String) (total : Nat) : Nat → List FSTree → List String
  | _, [] => []
  | i, item :: rest =>
    (if item.isDir && is_ignore_dir item.name then []
     else
       (pfx ++ (if i = total - 1 then "└──" else "├──") ++ " " ++ item.name) ::
         renderSub (pfx ++ (if i = total - 1 then "    " else "│   ")) item)
      ++ renderLoop pfx total (i + 1) rest
  termination_by _ l => (sizeOf l, 0)
  decreasing_by
  · apply Prod.Lex.left
    simp only [List.cons.sizeOf_spec]
    omega
  · apply Prod.Lex.left
    simp only [List.cons.sizeOf_spec]
    omega

/-- The `if os.path.isdir(item_path): recurse_dir(...)` step: only
directories are recursed into. -/
def renderSub (pfx : String) : FSTree → List String
  | .file _ => []
  | .dir _ cs => recurse_dir pfx cs
  termination_by t => (sizeOf t, 1)
  decreasing_by
  · apply Prod.Lex.left
    simp only [FSTree.dir.sizeOf_spec]
    omega

/-- `recurse_dir` from `get_directory_structure`: sort the listing, then
run the enumerated loop. -/
def recurse_dir (pfx : String) (children : List FSTree) : List String :=
  renderLoop pfx (sortChildren children).length 0 (sortChildren children)
  termination_by (sizeOf children, 2)
  decreasing_by
  · rw [sizeOf_sortChildren]
    exact Prod.Lex.right _ (by omega)

end

/-- `get_directory_structure`: the root's basename on the first line,
then the rendered lines, joined with newlines. -/
def get_directory_structure (root_base : String) (children : List FSTree) : String :=
  String.intercalate "\n" (root_base :: recurse_dir "" children)

/-- One file's chunk in the `=== File Contents ===` section of `main`: the
delimiter line, then the file's content — or, when the read raises, the
inline placeholder built from the exception — then a trailing newline.
Reading a file is modelled by a function returning `Except` (error payload
= the exception's text `{e}`). -/
def fileChunk (readFile : String → Except String String) (rel_path : String) : String :=
  "--- " ++ rel_path ++ " ---\n" ++
    (match readFile rel_path with
     | .ok content => content
     | .error e => "[読み込みエラー: " ++ e ++ "]\n") ++ "\n"

/-- The `for rel_path in files_to_list` loop of `main`, writing chunks in
order. -/
def writeChunks (readFile : String → Except String String) : List String → String
  | [] => ""
  | p :: ps => fileChunk readFile p ++ writeChunks readFile ps

/-- Everything `main` writes to the output file. -/
def report (readFile : String → Except String String)
    (directory_tree : String) (files_to_list : List String) : String :=
  "=== Directory Structure ===\n" ++ directory_tree ++ "\n\n" ++
    "=== File Contents ===\n" ++ writeChunks readFile files_to_list

/-- The claim's extension extraction, word for word: the substring after
the last dot of the basename, including the dot, or the empty string if
the basename contains no dot. -/
def specExtClaim (b : String) : String :=
  if b.data.contains '.' then
    ⟨'.' :: (b.data.reverse.takeWhile (fun c => c != '.')).reverse⟩
  else ""

/-- The amended extraction: as the claim, except that a dot is only an
extension separator when some character of the basename before the last
dot is not itself a dot — i.e. when the dots are not all in the leading
run (so dotfiles such as `.env` have an empty extension). -/
def specExtAmended (b : String) : String :=
  if (b.data.takeWhile (fun c => c == '.')).length < b.data.count '.' then
    ⟨'.' :: (b.data.reverse.takeWhile (fun c => c != '.')).reverse⟩
  else ""

/-- Steps 2–6 of the spec's classifier algorithm, over a given extension
extraction: lower-case both parts, reject ignored basenames, accept target
extensions, else accept empty-extension bare target filenames. -/
def specDecide (extract : String → String) (file_path : String) : Bool :=
  let base_name := basenameStr file_path
  let ext := extract base_name
  let base_name_lower := lowerStr base_name
  let ext_lower := lowerStr ext
  if base_name_lower ∈ IGNORE_FILENAMES then false
  else if ext_lower ∈ TARGET_EXTENSIONS then true
  else if ext_lower = "" ∧ base_name_lower ∈ TARGET_FILENAMES then true
  else false

/-- Deletion of every ignored directory (recursively) from a listing, the
transformation `os.walk`'s `dirnames[:] = [d for d in dirnames if not
is_ignore_dir(d)]` is meant to realize. -/
def pruneL : List FSTree → List FSTree
  | [] => []
  | .file n :: ts => .file n :: pruneL ts
  | .dir n cs :: ts =>
    if is_ignore_dir n then pruneL ts else .dir n (pruneL cs) :: pruneL ts

/-- `HasFileAt l ds fname`: starting from the listing `l`, following the
chain of (never-ignored) directories named `ds` leads to a listing that
contains the file `fname`. -/
inductive HasFileAt : List FSTree → List String → String → Prop where
  | here {l : List FSTree} {fname : String} :
      FSTree.file fname ∈ l → HasFileAt l [] fname
  | there {l : List FSTree} {d : String} {cs : List FSTree} {ds : List String}
      {fname : String} :
      FSTree.dir d cs ∈ l → is_ignore_dir d = false → HasFileAt cs ds fname →
      HasFileAt l (d :: ds) fname

/-- The relative path of a file under the directory chain `ds`. -/
def joinPath (ds : List String) (fname : String) : String :=
  ds.foldr (fun d acc => d ++ "/" ++ acc) fname

/-! ## Helper lemmas -/

theorem contains_iff_mem {l : List Char} {a : Char} : l.contains a = true ↔ a ∈ l := by
  simp [List.contains_iff_exists_mem_beq]

theorem lowerStr_empty_iff {s : String} : lowerStr s = "" ↔ s = "" := by
  constructor
  · intro h
    have hd : s.data.map Char.toLower = ([] : List Char) := congrArg String.data h
    have : s.data = [] := List.map_eq_nil_iff.mp hd
    cases s
    simp_all
  · rintro rfl; rfl

theorem splitext_cond (l : List Char) :
    ((l.takeWhile (fun c => c == '.')).length < l.count '.') ↔
      (l.dropWhile (fun c => c == '.')).contains '.' = true := by
  have hcount : l.count '.' =
      (l.takeWhile (fun c => c == '.')).length +
        (l.dropWhile (fun c => c == '.')).count '.' := by
    conv_lhs => rw [← List.takeWhile_append_dropWhile (p := fun c => c == '.') (l := l)]
    rw [List.count_append]
    congr 1
    refine (List.count_eq_length (a := '.')).mpr fun x hx => ?_
    have hb : (x == '.') = true :=
      List.mem_takeWhile_imp (p := fun c => c == '.') hx
    exact (eq_of_beq hb).symm
  rw [hcount, contains_iff_mem, ← List.count_pos_iff]
  omega

theorem specExtAmended_eq (b : String) : specExtAmended b = splitextExt b := by
  unfold specExtAmended splitextExt
  by_cases h : (b.data.dropWhile (fun c => c == '.')).contains '.' = true
  · rw [if_pos ((splitext_cond b.data).mpr h), if_pos h]
  · rw [if_neg (fun hh => h ((splitext_cond b.data).mp hh)), if_neg h]

theorem toLower_eq_dot_iff (c : Char) : Char.toLower c = '.' ↔ c = '.' := by
  constructor
  · intro h
    have h' : (if c.toNat ≥ 65 ∧ c.toNat ≤ 90 then Char.ofNat (c.toNat + 32) else c) =
        '.' := h
    split at h'
    · rename_i hcond
      exfalso
      obtain ⟨h65, h90⟩ := hcond
      generalize hn : c.toNat = n at h' h65 h90
      interval_cases n <;> exact absurd h' (by decide)
    · exact h'
  · rintro rfl; rfl

theorem toLower_beq_dot (c : Char) : (Char.toLower c == '.') = (c == '.') := by
  by_cases h : c = '.'
  · subst h; rfl
  · have h2 : Char.toLower c ≠ '.' := fun hh => h ((toLower_eq_dot_iff c).mp hh)
    simp [h, h2]

theorem toLower_bne_dot (c : Char) : (Char.toLower c != '.') = (c != '.') := by
  simp only [bne, toLower_beq_dot]

theorem contains_dot_map (m : List Char) :
    (m.map Char.toLower).contains '.' = m.contains '.' := by
  induction m with
  | nil => rfl
  | cons a t ih =>
    simp only [List.map_cons, List.contains_cons, ih]
    congr 1
    by_cases hA : a = '.'
    · subst hA; rfl
    · have h2 : Char.toLower a ≠ '.' := fun hh => hA ((toLower_eq_dot_iff a).mp hh)
      rw [beq_eq_false_iff_ne.mpr (Ne.symm h2), beq_eq_false_iff_ne.mpr (Ne.symm hA)]

/-- Lower-casing commutes with extension extraction (dots are preserved by
`Char.toLower`). -/
theorem splitextExt_lowerStr (b : String) :
    splitextExt (lowerStr b) = lowerStr (splitextExt b) := by
  have hp : ((fun c : Char => c == '.') ∘ Char.toLower) = (fun c : Char => c == '.') := by
    funext c; exact toLower_beq_dot c
  have hq : ((fun c : Char => c != '.') ∘ Char.toLower) = (fun c : Char => c != '.') := by
    funext c; exact toLower_bne_dot c
  unfold splitextExt lowerStr
  rw [List.dropWhile_map, hp, contains_dot_map, ← List.map_reverse,
    List.takeWhile_map, hq, ← List.map_reverse]
  by_cases h : (b.data.dropWhile (fun c => c == '.')).contains '.' = true
  · rw [if_pos h, if_pos h]
    apply congrArg String.mk
    simp [show Char.toLower '.' = '.' from rfl]
  · rw [if_neg h, if_neg h]
    rfl

/-! ## Claims -/

/-- C1, counterexample: the claim's extraction rule ("substring after the
last dot, or empty if the basename contains no dot") yields `.env` for the
basename `.env`, which is in the target-extension set, so the claimed
decision procedure accepts `.env` — but `is_target_file` rejects it,
because `os.path.splitext` gives dotfiles an empty extension. -/
theorem c1_extraction_claim_false :
    is_target_file ".env" = false ∧ specDecide specExtClaim ".env" = true := by
  constructor
  · decide
  · decide

/-- C1, amended: for every path, `is_target_file`'s accept/reject decision
is steps 3–6 of the spec computed over the extension extracted as the
substring from the last dot of the basename (dot included) — except that a
dot inside the basename's leading run of dots never counts as a separator,
so a basename whose dots are all leading (such as `.env`, or a dot-free
basename) has the empty extension. -/
theorem c1_decision_over_amended_extraction (p : String) :
    is_target_file p = specDecide specExtAmended p := by
  simp only [is_target_file, classifyBase, specDecide, specExtAmended_eq]

/-- C9: a file whose basename is literally one of the configured target
extensions (a single leading dot followed by dot-free text, e.g. `.env`,
`.md`, `.txt`) is rejected: its extracted extension is empty, its basename
is not a bare-filename target, so `is_target_file` returns `false`. -/
theorem c9_dotfile_named_like_extension_rejected (p : String)
    (h : basenameStr p ∈ TARGET_EXTENSIONS) :
    splitextExt (basenameStr p) = "" ∧
      lowerStr (basenameStr p) ∉ TARGET_FILENAMES ∧
      is_target_file p = false := by
  have hall : ∀ b ∈ TARGET_EXTENSIONS,
      splitextExt b = "" ∧ lowerStr b ∉ TARGET_FILENAMES ∧ classifyBase b = false := by
    decide
  exact hall (basenameStr p) h

/-- Witness for C9 at the concrete path `config/.env`. -/
theorem c9_dotfile_named_like_extension_rejected_witness :
    basenameStr "config/.env" ∈ TARGET_EXTENSIONS ∧
      (splitextExt (basenameStr "config/.env") = "" ∧
        lowerStr (basenameStr "config/.env") ∉ TARGET_FILENAMES ∧
        is_target_file "config/.env" = false) :=
  ⟨by decide, c9_dotfile_named_like_extension_rejected "config/.env" (by decide)⟩

/-- C6: for a path with no (extracted) extension, `is_target_file` accepts
exactly when the lower-cased basename is in the bare-filename target set. -/
theorem c6_no_extension_iff_bare_target (p : String)
    (h : splitextExt (basenameStr p) = "") :
    is_target_file p = true ↔ lowerStr (basenameStr p) ∈ TARGET_FILENAMES := by
  have hdisj : ∀ x ∈ IGNORE_FILENAMES, x ∉ TARGET_FILENAMES := by decide
  unfold is_target_file classifyBase
  rw [h]
  by_cases h1 : lowerStr (basenameStr p) ∈ IGNORE_FILENAMES
  · simp only [h1, if_true, if_pos]
    constructor
    · intro hF; cases hF
    · intro hmem; exact absurd hmem (hdisj _ h1)
  · simp only [h1, if_false, if_neg, ite_false, not_false_eq_true]
    have h2 : lowerStr "" ∉ TARGET_EXTENSIONS := by decide
    simp only [h2, if_false, if_neg, ite_false, not_false_eq_true]
    by_cases h3 : lowerStr (basenameStr p) ∈ TARGET_FILENAMES
    · simp [h3, show lowerStr "" = "" from rfl]
    · simp [h3]

/-- Witness for C6 at the concrete path `src/Makefile`. -/
theorem c6_no_extension_iff_bare_target_witness :
    splitextExt (basenameStr "src/Makefile") = "" ∧
      (is_target_file "src/Makefile" = true ↔
        lowerStr (basenameStr "src/Makefile") ∈ TARGET_FILENAMES) :=
  ⟨by decide, c6_no_extension_iff_bare_target "src/Makefile" (by decide)⟩

/-- C2: the ignore set overrides everything — a path whose lower-cased
extension or lower-cased basename is in `IGNORE_FILENAMES` is rejected no
matter what; and a path whose lower-cased extension is in
`TARGET_EXTENSIONS` and whose basename is not ignored is accepted. -/
theorem c2_ignore_overrides_targets (p : String) :
    ((lowerStr (splitextExt (basenameStr p)) ∈ IGNORE_FILENAMES ∨
        lowerStr (basenameStr p) ∈ IGNORE_FILENAMES) →
      is_target_file p = false) ∧
    (lowerStr (splitextExt (basenameStr p)) ∈ TARGET_EXTENSIONS →
      lowerStr (basenameStr p) ∉ IGNORE_FILENAMES →
      is_target_file p = true) := by
  have hdisjTE : ∀ x ∈ IGNORE_FILENAMES, x ∉ TARGET_EXTENSIONS := by decide
  have hne : ∀ x ∈ IGNORE_FILENAMES, x ≠ "" := by decide
  constructor
  · rintro (hext | hbase)
    · unfold is_target_file classifyBase
      by_cases h1 : lowerStr (basenameStr p) ∈ IGNORE_FILENAMES
      · simp [h1]
      · have h2 : lowerStr (splitextExt (basenameStr p)) ∉ TARGET_EXTENSIONS :=
          hdisjTE _ hext
        have h3 : lowerStr (splitextExt (basenameStr p)) ≠ "" := hne _ hext
        simp [h1, h2, h3]
    · unfold is_target_file classifyBase
      simp [hbase]
  · intro hext hbase
    unfold is_target_file classifyBase
    simp [hext, hbase]

/-- Witness for C2: `build/foo.o` (ignored extension `.o`) is rejected,
and `src/a.py` (target extension `.py`, basename not ignored) is
accepted. -/
theorem c2_ignore_overrides_targets_witness :
    is_target_file "build/foo.o" = false ∧ is_target_file "src/a.py" = true :=
  ⟨(c2_ignore_overrides_targets "build/foo.o").1 (by decide),
    (c2_ignore_overrides_targets "src/a.py").2 (by decide) (by decide)⟩

/-- C7: the bare-filename branch (extension empty, lower-cased basename in
`TARGET_FILENAMES`) can only fire on the dot-free entries of that set —
the dotted entries (`requirements.txt`, `package.json`, `tsconfig.json`,
`composer.json`) force a nonempty extracted extension, so they are dead
configuration. -/
theorem c7_bare_branch_only_dotfree_entries (p : String)
    (h1 : splitextExt (basenameStr p) = "")
    (h2 : lowerStr (basenameStr p) ∈ TARGET_FILENAMES) :
    lowerStr (basenameStr p) ∈ ["makefile", "dockerfile", "readme", "pipfile"] := by
  have hcomm := splitextExt_lowerStr (basenameStr p)
  rw [h1] at hcomm
  have hall : ∀ x ∈ TARGET_FILENAMES, splitextExt x = lowerStr "" →
      x ∈ ["makefile", "dockerfile", "readme", "pipfile"] := by decide
  exact hall _ h2 hcomm

/-- Witness for C7 at the concrete path `lib/Dockerfile`. -/
theorem c7_bare_branch_only_dotfree_entries_witness :
    splitextExt (basenameStr "lib/Dockerfile") = "" ∧
      lowerStr (basenameStr "lib/Dockerfile") ∈ TARGET_FILENAMES ∧
      lowerStr (basenameStr "lib/Dockerfile") ∈
        ["makefile", "dockerfile", "readme", "pipfile"] :=
  ⟨by decide, by decide,
    c7_bare_branch_only_dotfree_entries "lib/Dockerfile" (by decide) (by decide)⟩

/-- C5: whatever order the walk produced, `collect_files` returns a list
sorted ascending by (code-point) relative-path string comparison, because
it ends with `target_files.sort()`. -/
theorem c5_collect_files_sorted (root : List FSTree) :
    List.Sorted strLe (collect_files root) :=
  List.sorted_insertionSort strLe (collectL "" root)

theorem writeChunks_append (readFile : String → Except String String) :
    ∀ l1 l2 : List String,
      writeChunks readFile (l1 ++ l2) =
        writeChunks readFile l1 ++ writeChunks readFile l2
  | [], l2 => by simp [writeChunks]
  | p :: ps, l2 => by
    have ih := writeChunks_append readFile ps l2
    simp only [List.cons_append, writeChunks]
    show fileChunk readFile p ++ writeChunks readFile (ps ++ l2) = _
    rw [ih, String.append_assoc]

/-- C8: when reading one collected file raises, the report still carries
that file's delimiter line followed by the inline error placeholder built
from the exception text, and every chunk for the files after it is still
written. -/
theorem c8_read_error_keeps_delimiter_and_continues
    (readFile : String → Except String String) (directory_tree : String)
    (pre post : List String) (p e : String)
    (h : readFile p = Except.error e) :
    report readFile directory_tree (pre ++ p :: post) =
      "=== Directory Structure ===\n" ++ directory_tree ++ "\n\n" ++
        ("=== File Contents ===\n" ++
          (writeChunks readFile pre ++
            (("--- " ++ p ++ " ---\n" ++
                (("[読み込みエラー: " ++ e ++ "]\n") ++ "\n")) ++
              writeChunks readFile post))) := by
  unfold report
  rw [writeChunks_append]
  simp only [writeChunks, fileChunk, h, String.append_assoc]

/-- Witness for C8: a one-error run with files `a.py`, `b.py`, `c.py`
where reading `b.py` raises `Permission denied`. -/
theorem c8_read_error_keeps_delimiter_and_continues_witness :
    (fun q : String =>
        if q = "b.py" then (Except.error "Permission denied" : Except String String)
        else Except.ok "content") "b.py" = Except.error "Permission denied" ∧
      report
        (fun q : String =>
          if q = "b.py" then (Except.error "Permission denied" : Except String String)
          else Except.ok "content")
        "root" (["a.py"] ++ "b.py" :: ["c.py"]) =
        "=== Directory Structure ===\n" ++ "root" ++ "\n\n" ++
          ("=== File Contents ===\n" ++
            (writeChunks
                (fun q : String =>
                  if q = "b.py" then
                    (Except.error "Permission denied" : Except String String)
                  else Except.ok "content") ["a.py"] ++
              (("--- " ++ "b.py" ++ " ---\n" ++
                  (("[読み込みエラー: " ++ "Permission denied" ++ "]\n") ++ "\n")) ++
                writeChunks
                  (fun q : String =>
                    if q = "b.py" then
                      (Except.error "Permission denied" : Except String String)
                    else Except.ok "content") ["c.py"]))) :=
  ⟨by simp,
    c8_read_error_keeps_delimiter_and_continues _ "root" ["a.py"] ["c.py"] "b.py"
      "Permission denied" (by simp)⟩

theorem renderLoop_append (pfx : String) (total : Nat) :
    ∀ (i : Nat) (l1 l2 : List FSTree),
      renderLoop pfx total i (l1 ++ l2) =
        renderLoop pfx total i l1 ++ renderLoop pfx total (i + l1.length) l2
  | i, [], l2 => by simp [renderLoop]
  | i, t :: ts, l2 => by
    have ih := renderLoop_append pfx total (i + 1) ts l2
    simp only [List.cons_append, renderLoop, List.length_cons, ih, List.append_assoc]
    rw [show i + (ts.length + 1) = i + 1 + ts.length from by omega]

/-- C3, counterexample: in the listing `[a.py, node_modules]` the ignored
directory `node_modules` is the last *sorted* entry, so the connector
index never reaches `len(items) - 1` on a rendered entry: the sibling
group renders exactly one line, drawn with `├──`, and no rendered line of
the group starts with the terminal connector `└──` — contradicting the
claim that the last entry of every rendered sibling group uses `└──`. -/
theorem c3_terminal_connector_claim_false :
    recurse_dir "" [FSTree.file "a.py", FSTree.dir "node_modules" []] = ["├── a.py"] ∧
      ("└──".data.isPrefixOf ("├── a.py").data) = false := by
  constructor
  · rw [recurse_dir]
    simp only [sortChildren, List.insertionSort, List.orderedInsert]
    rw [if_pos (by decide : byName (FSTree.file "a.py") (FSTree.dir "node_modules" []))]
    simp [renderLoop, renderSub]
    decide
  · decide

/-- C3, amended: the children of every directory are rendered in
lexicographic (code-point) sorted order, and the entry at position `i` of
the *full* sorted listing — ignored directories included, even though they
are skipped — is drawn with `└──` exactly when `i` is the listing's last
index (`l2 = []`), and with `├──` otherwise; its subtree is rendered under
the prefix extended with `"    "` in the former case and `"│   "` in the
latter.  Consequently, when the listing's last entry is a skipped ignored
directory, no rendered entry of the group carries `└──`. -/
theorem c3_connector_by_full_listing_position (children : List FSTree) (pfx : String) :
    List.Sorted byName (sortChildren children) ∧
      ∀ (l1 l2 : List FSTree) (e : FSTree),
        sortChildren children = l1 ++ e :: l2 →
        (e.isDir && is_ignore_dir e.name) = false →
        recurse_dir pfx children =
          renderLoop pfx (l1.length + 1 + l2.length) 0 l1 ++
            ((pfx ++ (if l2.length = 0 then "└──" else "├──") ++ " " ++ e.name) ::
                renderSub (pfx ++ (if l2.length = 0 then "    " else "│   ")) e) ++
            renderLoop pfx (l1.length + 1 + l2.length) (l1.length + 1) l2 := by
  constructor
  · exact List.sorted_insertionSort byName children
  · intro l1 l2 e hsort hskip
    rw [recurse_dir, hsort]
    rw [show (l1 ++ e :: l2).length = l1.length + 1 + l2.length from by
      simp only [List.length_append, List.length_cons]; omega]
    rw [renderLoop_append, Nat.zero_add]
    simp only [renderLoop, hskip, Bool.false_eq_true, if_false, ite_false]
    by_cases hl2 : l2.length = 0
    · have h0 : l2 = [] := List.length_eq_zero.mp hl2
      subst h0
      rw [if_pos (by simp : l1.length = l1.length + 1 + List.length ([] : List FSTree) - 1),
        if_pos (by simp : l1.length = l1.length + 1 + List.length ([] : List FSTree) - 1)]
      simp [List.append_assoc]
    · rw [if_neg (by omega : ¬ l1.length = l1.length + 1 + l2.length - 1),
        if_neg (by omega : ¬ l1.length = l1.length + 1 + l2.length - 1),
        if_neg hl2, if_neg hl2]
      simp [List.append_assoc]

/-- Witness for the amended C3, at the one-entry listing `[a.py]`: the
sole entry is last in the full listing, so it is drawn with `└──`. -/
theorem c3_connector_by_full_listing_position_witness :
    sortChildren [FSTree.file "a.py"] = [] ++ FSTree.file "a.py" :: [] ∧
      recurse_dir "" [FSTree.file "a.py"] = ["└── a.py"] := by
  refine ⟨rfl, ?_⟩
  have h :=
    (c3_connector_by_full_listing_position [FSTree.file "a.py"] "").2
      [] [] (FSTree.file "a.py") rfl (by decide)
  simp only [renderLoop, renderSub] at h
  rw [h]
  decide

theorem collectL_pruneL :
    ∀ (children : List FSTree) (pfx : String),
      collectL pfx (pruneL children) = collectL pfx children
  | [], _ => by simp only [pruneL]
  | .file n :: ts, pfx => by
    simp only [pruneL, collectL, collectE, collectL_pruneL ts pfx]
  | .dir n cs :: ts, pfx => by
    by_cases h : is_ignore_dir n = true
    · simp only [pruneL, h, if_true, ite_true, collectL, collectE,
        collectL_pruneL ts pfx, List.nil_append]
    · simp only [pruneL, h, if_false, ite_false, Bool.false_eq_true, collectL, collectE,
        collectL_pruneL cs (pfx ++ n ++ "/"), collectL_pruneL ts pfx]
  termination_by children => sizeOf children

/-- C4: an ignored directory contributes nothing to either output.  For
the collector, the walk of any listing equals the walk of the listing with
every ignored directory (recursively) deleted, so neither an ignored
directory's name nor anything beneath it can reach the collected paths.
For the tree, if the sorted listing contains an ignored directory at any
position, the rendered lines are exactly those of the entries before it
followed by those of the entries after it (with their original indices):
the right-hand side mentions neither the ignored directory's name nor its
children, so no line is emitted for it or for anything beneath it. -/
theorem c4_ignored_dirs_absent_everywhere (children : List FSTree) (pfx : String) :
    collectL pfx (pruneL children) = collectL pfx children ∧
      ∀ (l1 l2 : List FSTree) (n : String) (cs : List FSTree),
        sortChildren children = l1 ++ FSTree.dir n cs :: l2 →
        is_ignore_dir n = true →
        recurse_dir pfx children =
          renderLoop pfx (l1.length + 1 + l2.length) 0 l1 ++
            renderLoop pfx (l1.length + 1 + l2.length) (l1.length + 1) l2 := by
  constructor
  · exact collectL_pruneL children pfx
  · intro l1 l2 n cs hsort hig
    rw [recurse_dir, hsort]
    rw [show (l1 ++ FSTree.dir n cs :: l2).length = l1.length + 1 + l2.length from by
      simp only [List.length_append, List.length_cons]; omega]
    rw [renderLoop_append, Nat.zero_add]
    simp only [renderLoop, FSTree.isDir, FSTree.name, hig, Bool.true_and, if_true,
      ite_true, List.nil_append]

/-- Witness for C4 with `node_modules` (holding `secret.py`) as the sole
listing entry: nothing is rendered and the prune-invariance instance. -/
theorem c4_ignored_dirs_absent_everywhere_witness :
    sortChildren [FSTree.dir "node_modules" [FSTree.file "secret.py"]] =
        [] ++ FSTree.dir "node_modules" [FSTree.file "secret.py"] :: [] ∧
      is_ignore_dir "node_modules" = true ∧
      recurse_dir "" [FSTree.dir "node_modules" [FSTree.file "secret.py"]] = [] ∧
      collectL "" (pruneL [FSTree.dir "node_modules" [FSTree.file "secret.py"]]) =
        collectL "" [FSTree.dir "node_modules" [FSTree.file "secret.py"]] := by
  refine ⟨rfl, by decide, ?_,
    (c4_ignored_dirs_absent_everywhere [FSTree.dir "node_modules" [FSTree.file "secret.py"]]
        "").1⟩
  have h :=
    (c4_ignored_dirs_absent_everywhere [FSTree.dir "node_modules" [FSTree.file "secret.py"]]
        "").2 [] [] "node_modules" [FSTree.file "secret.py"] rfl (by decide)
  simpa [renderLoop] using h

theorem takeWhile_append_cons_of_neg {p : Char → Bool} {c : Char} (hc : p c = false) :
    ∀ a b : List Char, ((a ++ c :: b).takeWhile p) = a.takeWhile p
  | [], b => by simp [List.takeWhile_cons, hc]
  | x :: a, b => by
    simp only [List.cons_append, List.takeWhile_cons]
    cases hx : p x
    · simp
    · simp [takeWhile_append_cons_of_neg hc a b]

theorem basenameStr_append_div (x y : String) :
    basenameStr (x ++ "/" ++ y) = basenameStr y := by
  unfold basenameStr
  apply congrArg String.mk
  apply congrArg List.reverse
  have hdata : (x ++ "/" ++ y).data = (x.data ++ ['/']) ++ y.data := by
    simp [String.data_append]
  rw [hdata, List.reverse_append, List.reverse_append]
  simp only [List.reverse_cons, List.reverse_nil, List.nil_append, List.append_assoc,
    List.cons_append]
  exact takeWhile_append_cons_of_neg (by decide) y.data.reverse x.data.reverse

/-- If the accumulated path piece is empty or slash-terminated, it does
not change the basename of what it is prepended to. -/
theorem basenameStr_pfx_append {pfx : String}
    (h : pfx = "" ∨ ∃ q, pfx = q ++ "/") (y : String) :
    basenameStr (pfx ++ y) = basenameStr y := by
  rcases h with rfl | ⟨q, rfl⟩
  · rw [String.empty_append]
  · exact basenameStr_append_div q y

theorem mem_collectL_of_file :
    ∀ (l : List FSTree) (pfx fname : String), FSTree.file fname ∈ l →
      is_target_file (pfx ++ fname) = true → (pfx ++ fname) ∈ collectL pfx l
  | [], _, _, hmem, _ => absurd hmem (List.not_mem_nil _)
  | t :: ts, pfx, fname, hmem, htgt => by
    rcases List.mem_cons.mp hmem with heq | hmem'
    · rw [collectL, ← heq]
      simp only [collectE, htgt, if_true, ite_true]
      exact List.mem_append_left _ (List.mem_singleton.mpr rfl)
    · rw [collectL]
      exact List.mem_append_right _ (mem_collectL_of_file ts pfx fname hmem' htgt)

theorem mem_collectL_of_dir :
    ∀ (l : List FSTree) (pfx d : String) (cs : List FSTree) (q : String),
      FSTree.dir d cs ∈ l → is_ignore_dir d = false →
      q ∈ collectL (pfx ++ d ++ "/") cs → q ∈ collectL pfx l
  | [], _, _, _, _, hmem, _, _ => absurd hmem (List.not_mem_nil _)
  | t :: ts, pfx, d, cs, q, hmem, hig, hq => by
    rcases List.mem_cons.mp hmem with heq | hmem'
    · rw [collectL, ← heq]
      simp only [collectE, hig, Bool.false_eq_true, if_false, ite_false]
      exact List.mem_append_left _ hq
    · rw [collectL]
      exact List.mem_append_right _ (mem_collectL_of_dir ts pfx d cs q hmem' hig hq)

theorem collectL_complete {l : List FSTree} {ds : List String} {fname : String}
    (hf : HasFileAt l ds fname) :
    ∀ pfx : String, (pfx = "" ∨ ∃ q, pfx = q ++ "/") →
      is_target_file (joinPath ds fname) = true →
      (pfx ++ joinPath ds fname) ∈ collectL pfx l := by
  induction hf with
  | here hmem =>
    intro pfx hok htgt
    apply mem_collectL_of_file _ _ _ hmem
    unfold is_target_file at htgt ⊢
    rwa [basenameStr_pfx_append hok]
  | there hmem hig _ ih =>
    intro pfx hok htgt
    rename_i d cs ds' fname' _
    have hok' : pfx ++ d ++ "/" = "" ∨ ∃ q, pfx ++ d ++ "/" = q ++ "/" :=
      .inr ⟨pfx ++ d, rfl⟩
    have htgt' : is_target_file (joinPath ds' fname') = true := by
      unfold is_target_file at htgt ⊢
      have hj : joinPath (d :: ds') fname' = d ++ "/" ++ joinPath ds' fname' := rfl
      rw [hj, basenameStr_append_div] at htgt
      exact htgt
    have hmem2 := ih (pfx ++ d ++ "/") hok' htgt'
    have heq : pfx ++ joinPath (d :: ds') fname' =
        (pfx ++ d ++ "/") ++ joinPath ds' fname' := by
      show pfx ++ (d ++ "/" ++ joinPath ds' fname') = _
      rw [String.append_assoc, String.append_assoc, String.append_assoc]
    rw [heq]
    exact mem_collectL_of_dir _ _ _ _ _ hmem hig hmem2

/-- C10: the ignore-prefix rule never applies to files.  Any file reachable
through non-ignored directories whose full name `is_target_file` accepts is
collected — in particular a file whose own basename starts with an ignore
prefix (such as `node_modules.py`), since only directory names are tested
with `is_ignore_dir` during the walk. -/
theorem c10_ignore_rule_skips_files {l : List FSTree} {ds : List String}
    {fname : String} (h1 : HasFileAt l ds fname)
    (_h2 : is_ignore_dir fname = true)
    (h3 : is_target_file (joinPath ds fname) = true) :
    joinPath ds fname ∈ collect_files l := by
  have hm := collectL_complete h1 "" (.inl rfl) h3
  rw [String.empty_append] at hm
  unfold collect_files
  exact (List.mem_insertionSort strLe).mpr hm

/-- Witness for C10: the root file `node_modules.py` has an
ignore-prefixed basename yet is collected. -/
theorem c10_ignore_rule_skips_files_witness :
    is_ignore_dir "node_modules.py" = true ∧
      is_target_file (joinPath [] "node_modules.py") = true ∧
      joinPath [] "node_modules.py" ∈ collect_files [FSTree.file "node_modules.py"] :=
  ⟨by decide, by decide,
    c10_ignore_rule_skips_files
      (.here (List.mem_singleton.mpr rfl)) (by decide) (by decide)⟩
